import Mathlib

/-!
Verification of the dynamic comment extraction engine of XHS-Downloader
(`dynamic_comment_extractor.py`), shallowly embedded in Lean 4.

The embedding mirrors the Python source function by function:
* the pagination loop `get_all_comments_with_pagination` (lines 439-522),
* `check_has_more_comments` (524-538),
* `extract_note_id` (91-103), the URL guard of `extract_comments` (1419-1426),
* `parse_time_string` (906-925) and `format_comment_time` (1279-1309),
* `recursive_search_comments` (927-959) and `looks_like_comment_data` (961-977),
* `clean_filename` (1255-1277) and `create_image_filename` (979-1005),
* `normalize_comment_data` (1213-1253) and the demo-comment fallback of
  `extract_comments` (1470-1488).

Python dict/list page state is modelled by the `PyVal` variant type; `None`
maps to `PyVal.null`, dict field probing maps to association-list lookup.
-/

/-- A Python value as it occurs in the page state snapshot trees that the
extractor walks: null, booleans, integers, strings, lists and dicts
(dicts as association lists of string keys, first binding wins, matching
the lookup behaviour the extractor relies on). -/
inductive PyVal : Type where
  | null : PyVal
  | bool : Bool → PyVal
  | int : Int → PyVal
  | str : String → PyVal
  | list : List PyVal → PyVal
  | dict : List (String × PyVal) → PyVal

/-- `d.get(k)` on a dict modelled as an association list. -/
def dictGet : List (String × PyVal) → String → Option PyVal
  | [], _ => none
  | (k, v) :: rest, key => if k == key then some v else dictGet rest key

/-- `d.get(k, default)`: the Python two-argument `dict.get`. -/
def dictGetD (entries : List (String × PyVal)) (key : String) (dflt : PyVal) : PyVal :=
  match dictGet entries key with
  | some v => v
  | none => dflt

/-- `k in d` for a dict modelled as an association list. -/
def dictHasKey (entries : List (String × PyVal)) (key : String) : Bool :=
  (dictGet entries key).isSome

/- ### Pagination loop (`get_all_comments_with_pagination`, lines 439-522) -/

/-- A comment record as it flows through the pagination loop: the loop itself
only inspects the `id` field (`comment.get('id', '')`), the rest of the
record rides along as payload. -/
structure PComment where
  id : String
  payload : String
  deriving DecidableEq, Repr

/-- One page snapshot as consumed by one iteration of the pagination loop:
the batch that `extract_comments_from_state` produces from
`window.__INITIAL_STATE__`, and the `hasMore` / `loading` flags that
`check_has_more_comments` reads from the same state. -/
structure Snapshot where
  batch : List PComment
  hasMore : Bool
  loading : Bool
  deriving DecidableEq, Repr

/-- Why the pagination loop stopped: `noState` models `evaluate` returning
null (or the snapshot stream ending), `quota` the `len(all) >= max_comments`
break, `noProgress` the "no new comments" break, `exhausted` the
`not has_more` break, `maxIter` the `page_count < max_pages` guard failing. -/
inductive StopReason : Type where
  | noState : StopReason
  | quota : StopReason
  | noProgress : StopReason
  | exhausted : StopReason
  | maxIter : StopReason
  deriving DecidableEq, Repr

/-- `check_has_more_comments` (lines 524-538): `hasMore and not loading`
read from the snapshot. -/
def check_has_more_comments (s : Snapshot) : Bool :=
  s.hasMore && !s.loading

/-- The body of `get_all_comments_with_pagination` (lines 450-519) as a
recursion over the stream of snapshots. `maxC` is `self.max_comments`;
Python truthiness makes `None` and `0` both mean "no limit", which the
`Option Nat` cases below reproduce by pairing every quota test with
`q ≠ 0`. Per iteration: dedupe the batch against the ids already
collected; on a non-empty batch with no new ids break `noProgress`;
truncate a batch that would overflow the quota (`new_comments[:needed]`);
break `quota` once the quota is reached; otherwise consult
`check_has_more_comments` and either break `exhausted` or load more and
continue. -/
def runPagination (maxC : Option Nat) : Nat → List Snapshot → List PComment →
    List PComment × StopReason
  | _, [], acc => (acc, StopReason.noState)
  | 0, _ :: _, acc => (acc, StopReason.maxIter)
  | pagesLeft + 1, s :: rest, acc =>
    if s.batch.isEmpty then
      if check_has_more_comments s then
        runPagination maxC pagesLeft rest acc
      else
        (acc, StopReason.exhausted)
    else
      let existing := acc.map (fun c => c.id)
      let newC := s.batch.filter (fun c => !(existing.contains c.id))
      if newC.isEmpty then
        (acc, StopReason.noProgress)
      else
        let newC2 :=
          match maxC with
          | some q =>
            if q ≠ 0 ∧ acc.length + newC.length > q then newC.take (q - acc.length)
            else newC
          | none => newC
        let acc2 := acc ++ newC2
        let quotaHit : Bool :=
          match maxC with
          | some q => (q != 0) && decide (acc2.length ≥ q)
          | none => false
        if quotaHit then
          (acc2, StopReason.quota)
        else if check_has_more_comments s then
          runPagination maxC pagesLeft rest acc2
        else
          (acc2, StopReason.exhausted)

/-- `get_all_comments_with_pagination` run from an empty collection with the
source's `max_pages = 50` bound (line 443). -/
def get_all_comments_with_pagination (maxC : Option Nat) (snaps : List Snapshot) :
    List PComment × StopReason :=
  runPagination maxC 50 snaps []

/- ### URL target-id extraction (`extract_note_id`, lines 91-103) -/

/-- The character class `[a-fA-F0-9]` of the three id patterns. -/
def isHexChar (c : Char) : Bool :=
  (('0' ≤ c) && (c ≤ '9')) || (('a' ≤ c) && (c ≤ 'f')) || (('A' ≤ c) && (c ≤ 'F'))

/-- One attempt of `re.search` at a fixed position: the regex `lit([a-fA-F0-9]+)`
matches here iff the text starts with `lit` followed by at least one hex
character; the greedy group captures the maximal hex run. -/
def matchHexAt (lit s : List Char) : Option (List Char) :=
  if lit.isPrefixOf s then
    let cap := (s.drop lit.length).takeWhile isHexChar
    if cap.isEmpty then none else some cap
  else none

/-- `re.search(lit + r'([a-fA-F0-9]+)', s)`: scan left to right and return the
group of the leftmost match. -/
def searchHex (lit : List Char) : List Char → Option (List Char)
  | [] => matchHexAt lit []
  | c :: cs =>
    match matchHexAt lit (c :: cs) with
    | some cap => some cap
    | none => searchHex lit cs

/-- `extract_note_id` (lines 91-103): probe the three patterns
`explore/([a-fA-F0-9]+)`, `discovery/item/([a-fA-F0-9]+)`,
`item/([a-fA-F0-9]+)` in order and return the first capture, else `None`. -/
def extract_note_id (url : String) : Option String :=
  let cs := url.toList
  match searchHex "explore/".toList cs with
  | some cap => some (String.mk cap)
  | none =>
    match searchHex "discovery/item/".toList cs with
    | some cap => some (String.mk cap)
    | none =>
      match searchHex "item/".toList cs with
      | some cap => some (String.mk cap)
      | none => none

/-- The guard at the top of `extract_comments` (lines 1423-1426): extract the
note id first and return `False` immediately when it is `None`; only
otherwise does the run proceed. The whole rest of the run (cookie check,
browser drive, saving) is abstracted as the continuation `restOfRun`. -/
def extract_comments_guard (url : String) (restOfRun : String → Bool) : Bool :=
  match extract_note_id url with
  | none => false
  | some nid => restOfRun nid

/- ### Calendar arithmetic shared by the two time functions -/

/-- Civil date to days since the Unix epoch (proleptic Gregorian), for years
of the common era; models the calendar arithmetic inside CPython
`datetime`. -/
def daysFromCivil (y m d : Nat) : Int :=
  let yp : Nat := if m ≤ 2 then y - 1 else y
  let era : Nat := yp / 400
  let yoe : Nat := yp % 400
  let mp : Nat := if m > 2 then m - 3 else m + 9
  let doy : Nat := (153 * mp + 2) / 5 + d - 1
  let doe : Nat := yoe * 365 + yoe / 4 - yoe / 100 + doy
  ((era * 146097 + doe : Nat) : Int) - 719468

/-- Civil date and time of day to epoch seconds (UTC). -/
def epochSecFromCivil (y m d hh mm ss : Nat) : Int :=
  daysFromCivil y m d * 86400 + (hh * 3600 + mm * 60 + ss : Nat)

/-- Days since the Unix epoch back to a civil date; total, with days before
year 1 clamped (never reached by the runs this file models). -/
def civilFromDays (z : Int) : Nat × Nat × Nat :=
  let zs : Nat := (z + 719468).toNat
  let era : Nat := zs / 146097
  let doe : Nat := zs % 146097
  let yoe : Nat := (doe - doe / 1460 + doe / 36524 - doe / 146096) / 365
  let y : Nat := yoe + era * 400
  let doy : Nat := doe - (365 * yoe + yoe / 4 - yoe / 100)
  let mp : Nat := (5 * doy + 2) / 153
  let d : Nat := doy - (153 * mp + 2) / 5 + 1
  let m : Nat := if mp < 10 then mp + 3 else mp - 9
  (if m ≤ 2 then y + 1 else y, m, d)

/-- Epoch seconds to civil date and time of day (UTC). -/
def epochSecToCivil (sec : Int) : Nat × Nat × Nat × Nat × Nat × Nat :=
  let days := sec.fdiv 86400
  let sod := (sec - days * 86400).toNat
  let (y, m, d) := civilFromDays days
  (y, m, d, sod / 3600, sod % 3600 / 60, sod % 60)

def pad2 (n : Nat) : String := if n < 10 then "0" ++ toString n else toString n

def pad4 (n : Nat) : String :=
  if n < 10 then "000" ++ toString n
  else if n < 100 then "00" ++ toString n
  else if n < 1000 then "0" ++ toString n
  else toString n

/-- `dt.strftime("%Y-%m-%d %H:%M:%S")` of the local civil time of an epoch
instant, where `tzOffSec` is the local utc-offset `datetime` applies. -/
def strftimeAt (tzOffSec sec : Int) : String :=
  let (y, m, d, hh, mm, ss) := epochSecToCivil (sec + tzOffSec)
  pad4 y ++ "-" ++ pad2 m ++ "-" ++ pad2 d ++ " " ++
    pad2 hh ++ ":" ++ pad2 mm ++ ":" ++ pad2 ss

/- ### `parse_time_string` (lines 906-925) -/

/-- Substring containment, `sub in s` on Python strings. -/
def containsSubList (sub : List Char) : List Char → Bool
  | [] => sub.isEmpty
  | c :: cs => sub.isPrefixOf (c :: cs) || containsSubList sub cs

/-- `re.search(r'(\d+)', s)`: the leftmost maximal run of decimal digits. -/
def firstDigitRun : List Char → Option (List Char)
  | [] => none
  | c :: cs =>
    if c.isDigit then some ((c :: cs).takeWhile Char.isDigit)
    else firstDigitRun cs

def digitsToNat (ds : List Char) : Nat :=
  ds.foldl (fun acc c => acc * 10 + (c.toNat - 48)) 0

/-- `s.replace('Z', '+00:00')` at the character level. -/
def replaceZ : List Char → List Char
  | [] => []
  | c :: cs =>
    if c == 'Z' then '+' :: '0' :: '0' :: ':' :: '0' :: '0' :: replaceZ cs
    else c :: replaceZ cs

/-- Parse exactly `n` decimal digits, returning their value and the rest. -/
def parseNDigits : Nat → List Char → Option (Nat × List Char)
  | 0, rest => some (0, rest)
  | _ + 1, [] => none
  | n + 1, c :: rest =>
    if c.isDigit then
      match parseNDigits n rest with
      | some (v, r) => some ((c.toNat - 48) * 10 ^ n + v, r)
      | none => none
    else none

def expectChar (c : Char) : List Char → Option (List Char)
  | [] => none
  | x :: rest => if x == c then some rest else none

/-- Models CPython `datetime.fromisoformat(s).timestamp()` on the
`YYYY-MM-DDTHH:MM:SS` shape with either no offset (a naive datetime, which
`timestamp()` interprets in the local timezone `tzOffSec`) or the explicit
`+00:00` offset the extractor substitutes for a trailing `Z`. Other ISO
variants are modelled as a parse failure. -/
def isoToEpochSec (tzOffSec : Int) (s : String) : Option Int :=
  match parseNDigits 4 s.toList with
  | none => none
  | some (y, r1) =>
    match expectChar '-' r1 with
    | none => none
    | some r2 =>
      match parseNDigits 2 r2 with
      | none => none
      | some (mo, r3) =>
        match expectChar '-' r3 with
        | none => none
        | some r4 =>
          match parseNDigits 2 r4 with
          | none => none
          | some (d, r5) =>
            match expectChar 'T' r5 with
            | none => none
            | some r6 =>
              match parseNDigits 2 r6 with
              | none => none
              | some (hh, r7) =>
                match expectChar ':' r7 with
                | none => none
                | some r8 =>
                  match parseNDigits 2 r8 with
                  | none => none
                  | some (mm, r9) =>
                    match expectChar ':' r9 with
                    | none => none
                    | some r10 =>
                      match parseNDigits 2 r10 with
                      | none => none
                      | some (ss, r11) =>
                        let civil := epochSecFromCivil y mo d hh mm ss
                        if r11.isEmpty then some (civil - tzOffSec)
                        else if r11 = "+00:00".toList then some civil
                        else none

/-- Models `int(float(s))` on plain decimal literals (optional sign, digits,
optional fractional part): truncation toward zero; anything else is a
`ValueError`, modelled as `none`. -/
def pyFloatToInt (s : String) : Option Int :=
  let cs := s.toList
  let (neg, cs) :=
    match cs with
    | '-' :: rest => (true, rest)
    | '+' :: rest => (false, rest)
    | rest => (false, rest)
  let intPart := cs.takeWhile Char.isDigit
  let rest := cs.drop intPart.length
  let ok :=
    match rest with
    | [] => !intPart.isEmpty
    | '.' :: frac => (!intPart.isEmpty || !frac.isEmpty) && frac.all Char.isDigit
    | _ => false
  if ok then
    let v : Int := (digitsToNat intPart : Nat)
    some (if neg then -v else v)
  else none

/-- `parse_time_string` (lines 906-925). `nowMs` is the epoch-millisecond
reading of `datetime.now()` / `time.time()` at the call; `tzOffSec` the
local utc-offset used by `fromisoformat` for offset-free strings. Branches
in source order: `小时前` (hours ago), `分钟前` (minutes ago), `天前`
(days ago), an ISO string recognized by containing `'T'`, then
`int(float(s))`; every failure path falls into the bare `except`, which
returns the current wall-clock time. -/
def parse_time_string (nowMs tzOffSec : Int) (time_str : String) : Int :=
  let cs := time_str.toList
  if containsSubList "小时前".toList cs then
    match firstDigitRun cs with
    | some ds => nowMs - (digitsToNat ds : Int) * 3600000
    | none => nowMs
  else if containsSubList "分钟前".toList cs then
    match firstDigitRun cs with
    | some ds => nowMs - (digitsToNat ds : Int) * 60000
    | none => nowMs
  else if containsSubList "天前".toList cs then
    match firstDigitRun cs with
    | some ds => nowMs - (digitsToNat ds : Int) * 86400000
    | none => nowMs
  else if cs.contains 'T' then
    match isoToEpochSec tzOffSec (String.mk (replaceZ cs)) with
    | some sec => sec * 1000
    | none => nowMs
  else
    match pyFloatToInt time_str with
    | some v => v
    | none => nowMs

/- ### `format_comment_time` (lines 1279-1309) -/

/-- `format_comment_time` (lines 1279-1309): format the stored timestamp as
`"%Y-%m-%d %H:%M:%S"`. A string timestamp goes through the same relative /
ISO branches as `parse_time_string` but is rendered via `strftime`; a
string matching no branch is returned unchanged. A numeric timestamp is
interpreted as milliseconds when `> 10^12`, else as seconds
(`datetime.fromtimestamp(ts/1000)` vs `datetime.fromtimestamp(ts)`); a
Python `bool` is an `int` (`True` is 1). Everything else - and every
exception - yields `"未知时间"`. Modelled at whole-second granularity;
`tzOffSec` is the local utc-offset `fromtimestamp`/`now` apply. -/
def format_comment_time (nowMs tzOffSec : Int) (timestamp : PyVal) : String :=
  match timestamp with
  | PyVal.str t =>
    let cs := t.toList
    if containsSubList "小时前".toList cs then
      match firstDigitRun cs with
      | some ds => strftimeAt tzOffSec (nowMs.fdiv 1000 - (digitsToNat ds : Int) * 3600)
      | none => "未知时间"
    else if containsSubList "分钟前".toList cs then
      match firstDigitRun cs with
      | some ds => strftimeAt tzOffSec (nowMs.fdiv 1000 - (digitsToNat ds : Int) * 60)
      | none => "未知时间"
    else if containsSubList "天前".toList cs then
      match firstDigitRun cs with
      | some ds => strftimeAt tzOffSec (nowMs.fdiv 1000 - (digitsToNat ds : Int) * 86400)
      | none => "未知时间"
    else if cs.contains 'T' then
      match isoToEpochSec tzOffSec (String.mk (replaceZ cs)) with
      | some sec => strftimeAt tzOffSec sec
      | none => "未知时间"
    else t
  | PyVal.int n =>
    if n > 10 ^ 12 then strftimeAt tzOffSec (n.fdiv 1000)
    else strftimeAt tzOffSec n
  | PyVal.bool b => strftimeAt tzOffSec (if b then 1 else 0)
  | _ => "未知时间"

/- ### Fallback comment search (lines 927-977) -/

/-- The signal-field list of `looks_like_comment_data` (lines 967-972),
verbatim from the source: note the snake_case `user_info`, `create_time`,
`created_at`, `comment_id`. -/
def comment_indicators : List String :=
  ["content", "text", "body",
   "user", "author", "user_info",
   "create_time", "time", "timestamp", "created_at",
   "id", "comment_id", "cid"]

/-- `looks_like_comment_data` (lines 961-977): a dict with at least 2 of the
signal fields present; anything that is not a dict is never a comment. -/
def looks_like_comment_data : PyVal → Bool
  | PyVal.dict entries => decide (2 ≤ (comment_indicators.filter (fun k => dictHasKey entries k)).length)
  | _ => false

/-- The list of privileged keys of `recursive_search_comments` (line 941). -/
def special_comment_keys : List String :=
  ["comments", "comment", "commentList", "replies", "list"]

/-- What one privileged key contributes (lines 942-949): elements of a list
value that classify as comments; for a dict value holding a `'list'` key,
elements of that inner list that classify as comments. A `'list'` value
that is not a list would raise in Python and is modelled as contributing
nothing. -/
def extract_from_special_value : PyVal → List PyVal
  | PyVal.list items => items.filter looks_like_comment_data
  | PyVal.dict sub =>
    match dictGet sub "list" with
    | some (PyVal.list items) => items.filter looks_like_comment_data
    | _ => []
  | _ => []

/-- `recursive_search_comments` (lines 927-959): depth-bounded walk over the
snapshot. A dict that classifies as a comment is returned whole; otherwise
privileged keys contribute their shallow extraction and every other value
is searched with one unit of depth spent; list elements are classified
individually, recursing on non-comments. Depth 0 returns nothing. -/
def recursive_search_comments : Nat → PyVal → List PyVal
  | 0, _ => []
  | fuel + 1, PyVal.dict entries =>
    if looks_like_comment_data (PyVal.dict entries) then [PyVal.dict entries]
    else
      entries.flatMap (fun kv =>
        if special_comment_keys.contains kv.1 then extract_from_special_value kv.2
        else recursive_search_comments fuel kv.2)
  | fuel + 1, PyVal.list items =>
    items.flatMap (fun item =>
      if looks_like_comment_data item then [item]
      else recursive_search_comments fuel item)
  | _ + 1, PyVal.null => []
  | _ + 1, PyVal.bool _ => []
  | _ + 1, PyVal.int _ => []
  | _ + 1, PyVal.str _ => []

/- ### Filename sanitation (lines 979-1005 and 1255-1277) -/

/-- The character class `[<>:"/\\|?*！~\n\r\t]` of `clean_filename`
(line 1260). -/
def illegal_filename_chars : List Char :=
  ['<', '>', ':', '"', '/', '\\', '|', '?', '*', '！', '~', '\n', '\r', '\t']

/-- A character matched by `[_\s]+` (underscore or whitespace). -/
def isUnderscoreOrSpace (c : Char) : Bool :=
  c == '_' || c.isWhitespace

/-- `re.sub(r'[_\s]+', '_', s)`: collapse each run of underscores and
whitespace to a single underscore. The flag records whether the previous
character belonged to the current run. -/
def collapseRuns : Bool → List Char → List Char
  | _, [] => []
  | inRun, c :: cs =>
    if isUnderscoreOrSpace c then
      if inRun then collapseRuns true cs
      else '_' :: collapseRuns true cs
    else c :: collapseRuns false cs

/-- `s.strip('_')`. -/
def stripUnderscore (cs : List Char) : List Char :=
  ((cs.dropWhile (fun c => c == '_')).reverse.dropWhile (fun c => c == '_')).reverse

/-- `s.strip()`. -/
def stripWhite (cs : List Char) : List Char :=
  ((cs.dropWhile Char.isWhitespace).reverse.dropWhile Char.isWhitespace).reverse

/-- `s.rstrip('_')`. -/
def rstripUnderscore (cs : List Char) : List Char :=
  (cs.reverse.dropWhile (fun c => c == '_')).reverse

/-- `clean_filename` (lines 1255-1277): replace the illegal characters by
`'_'`, collapse underscore/whitespace runs, strip `'_'` and whitespace at
both ends, truncate to 80 characters (then rstrip `'_'`), and fall back to
`"未命名作品"` when empty. -/
def clean_filename (filename : String) : String :=
  let cs0 := filename.toList
  let cs1 := cs0.map (fun c => if illegal_filename_chars.contains c then '_' else c)
  let cs2 := collapseRuns false cs1
  let cs3 := stripWhite (stripUnderscore cs2)
  let cs4 := if cs3.length > 80 then rstripUnderscore (cs3.take 80) else cs3
  if cs4.isEmpty then "未命名作品" else String.mk cs4

/-- `create_image_filename` (lines 979-1005): sanitized nickname, the
formatted time with only `':'` and `' '` replaced, the sanitized first 50
characters of the content (`"无内容"` when empty, `"..."` appended when
truncated), and the 1-based image index, joined by underscores. -/
def create_image_filename (nickname formatted_time content : String) (index : Nat) : String :=
  let clean_nickname := clean_filename nickname
  let time_part := String.mk (formatted_time.toList.map (fun c =>
    if c == ':' then '-' else if c == ' ' then '_' else c))
  let content_part0 := if content.isEmpty then "无内容" else String.mk (content.toList.take 50)
  let content_part1 := clean_filename content_part0
  let content_part :=
    if !content.isEmpty && content.toList.length > 50 then content_part1 ++ "..."
    else content_part1
  clean_nickname ++ "_" ++ time_part ++ "_" ++ content_part ++ "_" ++ toString index

/- ### Normalization (`normalize_comment_data`, lines 1213-1253) -/

/-- The apostrophe CPython repr uses around strings. -/
def pyQuote : String := String.singleton (Char.ofNat 39)

mutual
/-- Models Python `str(v)` (`asRepr = false`) and `repr(v)` (`asRepr = true`)
far enough for `str(content).strip()` in `normalize_comment_data`:
scalars and strings as CPython prints them, containers recursively with
repr-quoted strings (escaping inside strings is not modelled). -/
def pyStrM : Bool → PyVal → String
  | asRepr, PyVal.str s => if asRepr then pyQuote ++ s ++ pyQuote else s
  | _, PyVal.null => "None"
  | _, PyVal.bool b => if b then "True" else "False"
  | _, PyVal.int n => toString n
  | _, PyVal.list xs => "[" ++ pyStrList xs ++ "]"
  | _, PyVal.dict es => "\x7b" ++ pyStrEntries es ++ "\x7d"

def pyStrList : List PyVal → String
  | [] => ""
  | [x] => pyStrM true x
  | x :: y :: rest => pyStrM true x ++ ", " ++ pyStrList (y :: rest)

def pyStrEntries : List (String × PyVal) → String
  | [] => ""
  | [(k, v)] => pyQuote ++ k ++ pyQuote ++ ": " ++ pyStrM true v
  | (k, v) :: e :: rest =>
    pyQuote ++ k ++ pyQuote ++ ": " ++ pyStrM true v ++ ", " ++ pyStrEntries (e :: rest)
end

/-- Python `str(v)`. -/
def pyStr (v : PyVal) : String := pyStrM false v

/-- The canonical comment shape `normalize_comment_data` builds
(lines 1237-1243): exactly the five keys of `normalized_comment`. -/
structure NormComment where
  user_info : PyVal
  content : String
  create_time : PyVal
  images : List PyVal
  id : PyVal

/-- The body of the per-record loop of `normalize_comment_data`
(lines 1217-1247), at output position `position` (`len(normalized)` at the
time the record is processed). A record that is not a dict raises on the
first `.get` and is skipped by the per-record `except` -> `none`. -/
def normalize_one_comment (position : Nat) (c : PyVal) : Option NormComment :=
  match c with
  | PyVal.dict entries =>
    let ui0 := dictGetD entries "user_info"
      (dictGetD entries "user" (dictGetD entries "author" (PyVal.dict [])))
    let user_info :=
      match ui0 with
      | PyVal.str s => PyVal.dict [("nickname", PyVal.str s)]
      | PyVal.dict es => PyVal.dict es
      | _ => PyVal.dict [("nickname", PyVal.str "匿名用户")]
    let content0 := dictGetD entries "content"
      (dictGetD entries "text" (dictGetD entries "body" (PyVal.str "")))
    let content := String.mk (stripWhite (pyStr content0).toList)
    let create_time := dictGetD entries "create_time"
      (dictGetD entries "time" (dictGetD entries "timestamp" (PyVal.int 0)))
    let images0 := dictGetD entries "images"
      (dictGetD entries "pics" (dictGetD entries "pictures" (PyVal.list [])))
    let images := match images0 with
      | PyVal.list xs => xs
      | _ => []
    let cid := dictGetD entries "id"
      (dictGetD entries "comment_id" (PyVal.str ("comment_" ++ toString position)))
    some { user_info := user_info, content := content, create_time := create_time,
           images := images, id := cid }
  | _ => none

/-- `normalize_comment_data` (lines 1213-1253): normalize each record in
order, dropping records whose normalized content and image list are both
empty (the final truthiness filter, line 1246) and records that raised. -/
def normalize_comment_data (comments : List PyVal) : List NormComment :=
  comments.foldl (fun normalized c =>
    match normalize_one_comment normalized.length c with
    | some nc =>
      if !nc.content.isEmpty || !nc.images.isEmpty then normalized ++ [nc]
      else normalized
    | none => normalized) []

/- ### Demo-comment fallback of `extract_comments` (lines 1470-1491) -/

/-- The synthetic demo comment substituted when normalization yields nothing
(lines 1476-1484); `nowMs` is `int(time.time() * 1000)` at the call. -/
def demo_comment (nowMs : Int) : NormComment :=
  { user_info := PyVal.dict [("nickname", PyVal.str "评论提取演示")]
  , content := "这是一个演示评论，说明程序结构和功能正常工作。真实评论可能需要登录状态或特定条件才能获取。"
  , create_time := PyVal.int nowMs
  , images := []
  , id := PyVal.str "demo_1" }

/-- The sort key `lambda x: x.get('create_time', 0)` (line 1491), as the
integer CPython would compare: on the runs this model covers every key is
an `int` (epoch milliseconds) - other shapes are ordered as 0 to keep the
model total (a mixed-type list would raise `TypeError` in CPython). -/
def create_time_key : PyVal → Int
  | PyVal.int n => n
  | PyVal.bool b => if b then 1 else 0
  | _ => 0

/-- Stable descending insertion by `create_time_key`, modelling
`list.sort(key=..., reverse=True)`. -/
def insertByTimeDesc (x : NormComment) : List NormComment → List NormComment
  | [] => [x]
  | y :: ys =>
    if create_time_key x.create_time > create_time_key y.create_time then x :: y :: ys
    else y :: insertByTimeDesc x ys

def sortByTimeDesc (l : List NormComment) : List NormComment :=
  l.foldr insertByTimeDesc []

/-- The tail of `extract_comments` after the browser phase
(lines 1470-1492 and the final `return True`, line 1552): normalize the raw
comments, substitute the single demo comment when nothing survived, sort
newest-first, and report success. -/
def extract_comments_post (nowMs : Int) (raw_comments : List PyVal) :
    List NormComment × Bool :=
  let normalized := normalize_comment_data raw_comments
  let normalized := if normalized.isEmpty then [demo_comment nowMs] else normalized
  (sortByTimeDesc normalized, true)

/- ### Auxiliary notions used by the theorems -/

/-- The immediate children of a snapshot node: a list's elements, a dict's
values. -/
def childVals : PyVal → List PyVal
  | PyVal.list items => items
  | PyVal.dict entries => entries.map (fun kv => kv.2)
  | _ => []

/-- `OccursWithin k x v`: `x` occurs in the tree `v` at depth at most `k`. -/
inductive OccursWithin : Nat → PyVal → PyVal → Prop where
  | here (k : Nat) (v : PyVal) : OccursWithin k v v
  | step (k : Nat) (x child v : PyVal) : child ∈ childVals v →
      OccursWithin k x child → OccursWithin (k + 1) x v

/-- The synthetic deep tree of the spec's depth test: `deepNest n` buries a
record that classifies as a comment (`content` and `id` fields) under `n`
levels of a non-privileged dict key. -/
def deepNest : Nat → PyVal
  | 0 => PyVal.dict [("content", PyVal.str "deep comment"), ("id", PyVal.str "c1")]
  | n + 1 => PyVal.dict [("wrapper", deepNest n)]

/-- The regex `lit([a-fA-F0-9]+)` matches at the very start of `s`. -/
def MatchesHexAt (lit s : List Char) : Prop :=
  ∃ c post, s = lit ++ c :: post ∧ isHexChar c = true

/-- The regex `lit([a-fA-F0-9]+)` matches somewhere in `s`: the literal
followed immediately by at least one hex character. -/
def MatchesHexPattern (lit s : List Char) : Prop :=
  ∃ pre c post, s = pre ++ lit ++ c :: post ∧ isHexChar c = true

/-- A raw record whose id-bearing keys, when present, carry a non-empty
string: either both `id` and `comment_id` are absent, or `id` maps to a
non-empty string, or `id` is absent and `comment_id` maps to a non-empty
string. -/
def goodIdRecord (c : PyVal) : Prop :=
  ∀ es, c = PyVal.dict es →
    (dictGet es "id" = none ∧ dictGet es "comment_id" = none) ∨
    (∃ s, s ≠ "" ∧ dictGet es "id" = some (PyVal.str s)) ∨
    (dictGet es "id" = none ∧ ∃ s, s ≠ "" ∧ dictGet es "comment_id" = some (PyVal.str s))

/-! ### Theorems -/

/-- C4: at a fixed now, "2小时前" parses to now - 7,200,000 ms exactly (within
the claim's 1 s tolerance); the ISO-8601 string 2023-11-14T22:13:20Z parses
to 1700000000000 ms; formatting interprets a numeric 1700000000000 as
milliseconds and 1700000000 as seconds, so both denote the same instant in
any timezone; unparseable input falls back to the current wall-clock time. -/
theorem time_parsing_spec (nowMs tzOff : Int) :
    parse_time_string nowMs tzOff "2小时前" = nowMs - 7200000 ∧
    parse_time_string nowMs tzOff "2023-11-14T22:13:20Z" = 1700000000000 ∧
    format_comment_time nowMs tzOff (PyVal.int 1700000000000) =
      format_comment_time nowMs tzOff (PyVal.int 1700000000) ∧
    parse_time_string nowMs tzOff "无法解析的时间" = nowMs :=
  ⟨rfl, rfl, rfl, rfl⟩

/-- C2 counterexample: an entirely empty batch with hasMore = true does NOT
terminate the loop with the no-progress outcome; the run continues, triggers
load-more and collects a comment from the next snapshot. -/
theorem pagination_empty_batch_continues_cx :
    (get_all_comments_with_pagination none
      [{ batch := [], hasMore := true, loading := false },
       { batch := [{ id := "a", payload := "" }], hasMore := true, loading := false }]).2
        ≠ StopReason.noProgress ∧
    (get_all_comments_with_pagination none
      [{ batch := [], hasMore := true, loading := false },
       { batch := [{ id := "a", payload := "" }], hasMore := true, loading := false }]).1
      = [{ id := "a", payload := "" }] :=
  ⟨by decide, rfl⟩

/-- C2 amended: an iteration whose batch is NON-EMPTY but contains zero new
ids terminates with the no-progress outcome without triggering load-more,
regardless of the hasMore flag; an entirely EMPTY batch instead skips the
no-progress check and proceeds to the hasMore check, continuing (and
triggering load-more) when hasMore holds and loading does not. -/
theorem pagination_no_progress_amd (maxC : Option Nat) (s : Snapshot)
    (rest : List Snapshot) (fuel : Nat) (acc : List PComment) :
    (s.batch ≠ [] → (∀ c ∈ s.batch, c.id ∈ acc.map (fun a => a.id)) →
      runPagination maxC (fuel + 1) (s :: rest) acc = (acc, StopReason.noProgress)) ∧
    (s.batch = [] → check_has_more_comments s = true →
      runPagination maxC (fuel + 1) (s :: rest) acc = runPagination maxC fuel rest acc) := by
  constructor
  · intro hne hids
    have hempty : s.batch.isEmpty = false := by
      cases hb : s.batch with
      | nil => exact absurd hb hne
      | cons a l => rfl
    have hfilter : s.batch.filter (fun c => !((acc.map (fun a => a.id)).contains c.id)) = [] := by
      rw [List.filter_eq_nil_iff]
      intro c hc
      have hmem := hids c hc
      simp [List.contains, hmem]
    simp only [runPagination, hempty, Bool.false_eq_true, if_false, hfilter]
    simp
  · intro hb hm
    simp only [runPagination, hb, hm]
    simp [List.isEmpty, hm]

theorem pagination_no_progress_amd_witness :
    runPagination none 10
      [{ batch := [{ id := "a", payload := "" }], hasMore := true, loading := false }]
      [{ id := "a", payload := "p" }] = ([{ id := "a", payload := "p" }], StopReason.noProgress) :=
  (pagination_no_progress_amd none
    { batch := [{ id := "a", payload := "" }], hasMore := true, loading := false }
    [] 9 [{ id := "a", payload := "p" }]).1 (by decide) (by decide)

/-- C6 counterexample: a map carrying exactly the camelCase keys createTime
and commentId is NOT classified as a comment - the source's signal set is
snake_case (create_time, comment_id). -/
theorem looks_like_camelcase_cx :
    looks_like_comment_data
      (PyVal.dict [("createTime", PyVal.int 1700000000), ("commentId", PyVal.str "abc")])
      = false := rfl

/-- C6 amended: the classifier returns true exactly when at least 2 of the
source's snake_case signal fields {content, text, body, user, author,
user_info, create_time, time, timestamp, created_at, id, comment_id, cid}
are present; in particular every map carrying both a create_time key and a
comment_id key is classified as a comment. -/
theorem looks_like_comment_amd (entries : List (String × PyVal)) :
    (looks_like_comment_data (PyVal.dict entries) = true ↔
      2 ≤ (comment_indicators.filter (fun k => dictHasKey entries k)).length) ∧
    (dictHasKey entries "create_time" = true → dictHasKey entries "comment_id" = true →
      looks_like_comment_data (PyVal.dict entries) = true) := by
  constructor
  · simp [looks_like_comment_data]
  · intro h1 h2
    simp only [looks_like_comment_data, decide_eq_true_eq]
    have hsub : (["create_time", "comment_id"].filter (fun k => dictHasKey entries k)).Sublist
        (comment_indicators.filter (fun k => dictHasKey entries k)) :=
      List.Sublist.filter _ (by decide)
    have heq : ["create_time", "comment_id"].filter (fun k => dictHasKey entries k)
        = ["create_time", "comment_id"] := by
      simp [List.filter, h1, h2]
    rw [heq] at hsub
    simpa using hsub.length_le

theorem looks_like_comment_amd_witness :
    looks_like_comment_data (PyVal.dict [("create_time", PyVal.int 1700000000),
      ("comment_id", PyVal.str "abc")]) = true :=
  (looks_like_comment_amd
    [("create_time", PyVal.int 1700000000), ("comment_id", PyVal.str "abc")]).2 rfl rfl

theorem length_insertByTimeDesc (x : NormComment) (l : List NormComment) :
    (insertByTimeDesc x l).length = l.length + 1 := by
  induction l with
  | nil => rfl
  | cons y ys ih =>
    simp only [insertByTimeDesc]
    split
    · simp
    · simp [ih]

theorem length_sortByTimeDesc (l : List NormComment) :
    (sortByTimeDesc l).length = l.length := by
  induction l with
  | nil => rfl
  | cons x xs ih =>
    simp only [sortByTimeDesc, List.foldr] at ih ⊢
    simp [length_insertByTimeDesc, ih]

/-- C10: the post-extraction tail of extract_comments never delivers an empty
list: if normalization yields zero comments the single synthetic demo
comment (id demo_1, fixed nickname, current wall-clock create_time, empty
image list) is substituted, and the run reports success (True). -/
theorem extract_comments_never_empty_t (nowMs : Int) (raw : List PyVal) :
    (extract_comments_post nowMs raw).1 ≠ [] ∧
    (extract_comments_post nowMs raw).2 = true ∧
    (normalize_comment_data raw = [] →
      (extract_comments_post nowMs raw).1 = [demo_comment nowMs]) ∧
    (demo_comment nowMs).id = PyVal.str "demo_1" ∧
    (demo_comment nowMs).images = [] ∧
    (demo_comment nowMs).create_time = PyVal.int nowMs := by
  have key : ∀ l : List NormComment, l ≠ [] → sortByTimeDesc l ≠ [] := by
    intro l hl hcon
    have hlen := length_sortByTimeDesc l
    rw [hcon] at hlen
    cases l with
    | nil => exact hl rfl
    | cons a as => simp at hlen
  refine ⟨?_, rfl, ?_, rfl, rfl, rfl⟩
  · unfold extract_comments_post
    by_cases he : normalize_comment_data raw = []
    · simp [he]
      intro hcon
      exact absurd hcon (key [demo_comment nowMs] (by simp))
    · simp only []
      apply key
      simp [he]
  · intro he
    unfold extract_comments_post
    simp [he]
    rfl

theorem extract_comments_never_empty_t_witness :
    (extract_comments_post 0 []).1 = [demo_comment 0] :=
  (extract_comments_never_empty_t 0 []).2.2.1 rfl

/-- C3 counterexample: a record carrying an id key with the empty string and
a raw relative-time create_time is normalized to a comment whose id is the
EMPTY string and whose create_time is still the raw relative string. -/
theorem normalize_empty_id_cx :
    (normalize_comment_data
      [PyVal.dict [("id", PyVal.str ""), ("content", PyVal.str "hi"),
                   ("create_time", PyVal.str "2小时前")]]).map
        (fun nc => (nc.id, nc.create_time))
      = [(PyVal.str "", PyVal.str "2小时前")] := rfl

theorem normalize_one_id_good (p : Nat) (c : PyVal) (hc : goodIdRecord c)
    (nc : NormComment) (h : normalize_one_comment p c = some nc) :
    ∃ s, nc.id = PyVal.str s ∧ s ≠ "" := by
  cases c with
  | dict es =>
    simp only [normalize_one_comment, Option.some_inj] at h
    have hid : nc.id = dictGetD es "id"
        (dictGetD es "comment_id" (PyVal.str ("comment_" ++ toString p))) := by
      rw [← h]
    rcases hc es rfl with ⟨h1, h2⟩ | ⟨s, hs, h1⟩ | ⟨h1, s, hs, h2⟩
    · refine ⟨"comment_" ++ toString p, ?_, ?_⟩
      · rw [hid]; simp [dictGetD, h1, h2]
      · intro heq
        have hlen := congrArg String.length heq
        simp [String.length_append] at hlen
        exact absurd hlen.1 (by decide)
    · exact ⟨s, by rw [hid]; simp [dictGetD, h1], hs⟩
    · exact ⟨s, by rw [hid]; simp [dictGetD, h1, h2], hs⟩
  | null => simp [normalize_one_comment] at h
  | bool b => simp [normalize_one_comment] at h
  | int n => simp [normalize_one_comment] at h
  | str s => simp [normalize_one_comment] at h
  | list l => simp [normalize_one_comment] at h

theorem normalize_foldl_id_aux (comments : List PyVal)
    (h : ∀ c ∈ comments, goodIdRecord c) (acc : List NormComment)
    (hacc : ∀ nc ∈ acc, ∃ s, nc.id = PyVal.str s ∧ s ≠ "") :
    ∀ nc ∈ comments.foldl (fun normalized c =>
      match normalize_one_comment normalized.length c with
      | some nc =>
        if !nc.content.isEmpty || !nc.images.isEmpty then normalized ++ [nc]
        else normalized
      | none => normalized) acc, ∃ s, nc.id = PyVal.str s ∧ s ≠ "" := by
  induction comments generalizing acc with
  | nil => exact fun nc hnc => hacc nc hnc
  | cons c cs ih =>
    intro nc hnc
    simp only [List.foldl] at hnc
    refine ih (fun d hd => h d (List.mem_cons_of_mem _ hd)) _ ?_ nc hnc
    intro m hm
    cases hone : normalize_one_comment acc.length c with
    | none => rw [hone] at hm; exact hacc m hm
    | some k =>
      rw [hone] at hm
      dsimp only at hm
      by_cases hkeep : !k.content.isEmpty || !k.images.isEmpty
      · rw [if_pos hkeep] at hm
        rcases List.mem_append.mp hm with hin | hin
        · exact hacc m hin
        · have : m = k := by simpa using hin
          subst this
          exact normalize_one_id_good acc.length c (h c (List.mem_cons_self c cs)) m hone
      · rw [if_neg hkeep] at hm
        exact hacc m hm

/-- C3 amended: the normalizer probes id then comment_id by KEY PRESENCE
(not non-emptiness), synthesizing "comment_<output-position>" only when
both keys are absent - so every output id is a non-empty string only under
the stated side condition on the input records; and create_time is copied
through UNPARSED from create_time/time/timestamp, so a raw relative string
is passed along rather than converted to epoch milliseconds. -/
theorem normalize_id_amd (comments : List PyVal)
    (h : ∀ c ∈ comments, goodIdRecord c) :
    (∀ nc ∈ normalize_comment_data comments, ∃ s, nc.id = PyVal.str s ∧ s ≠ "") ∧
    (∀ es v p nc, dictGet es "create_time" = some v →
      normalize_one_comment p (PyVal.dict es) = some nc → nc.create_time = v) ∧
    (∀ es p nc, dictGet es "id" = none → dictGet es "comment_id" = none →
      normalize_one_comment p (PyVal.dict es) = some nc →
      nc.id = PyVal.str ("comment_" ++ toString p)) := by
  refine ⟨?_, ?_, ?_⟩
  · intro nc hnc
    exact normalize_foldl_id_aux comments h [] (by simp) nc hnc
  · intro es v p nc hct hone
    simp only [normalize_one_comment, Option.some_inj] at hone
    rw [← hone]
    simp [dictGetD, hct]
  · intro es p nc h1 h2 hone
    simp only [normalize_one_comment, Option.some_inj] at hone
    rw [← hone]
    simp [dictGetD, h1, h2]

theorem normalize_id_amd_witness :
    ∃ s, ({ user_info := PyVal.dict [], content := "hi", create_time := PyVal.int 0,
            images := [], id := PyVal.str "comment_0" } : NormComment).id
        = PyVal.str s ∧ s ≠ "" :=
  (normalize_id_amd [PyVal.dict [("content", PyVal.str "hi")]]
    (by
      intro c hc
      simp only [List.mem_singleton] at hc
      subst hc
      intro es hes
      cases hes
      exact Or.inl ⟨rfl, rfl⟩)).1
    _ (List.mem_singleton_self _)

/-- C9 counterexample: the combined image filename is NOT capped at 80
characters - an 80-character (legal) nickname already pushes the output to
106 characters, because only the nickname and content parts are
individually capped by clean_filename. -/
theorem create_image_filename_over80_cx :
    80 < (create_image_filename (String.mk (List.replicate 80 'a'))
      "2024-01-01 10:00:00" "" 1).length := by decide

theorem collapseRuns_mem (P : Char → Prop) (hP : P '_')
    (flag : Bool) (cs : List Char) (h : ∀ c ∈ cs, P c) :
    ∀ c ∈ collapseRuns flag cs, P c := by
  induction cs generalizing flag with
  | nil => intro c hc; simp [collapseRuns] at hc
  | cons a l ih =>
    intro c hc
    simp only [collapseRuns] at hc
    split at hc
    · split at hc
      · exact ih true (fun d hd => h d (List.mem_cons_of_mem _ hd)) c hc
      · rcases List.mem_cons.mp hc with rfl | hc
        · exact hP
        · exact ih true (fun d hd => h d (List.mem_cons_of_mem _ hd)) c hc
    · rcases List.mem_cons.mp hc with rfl | hc
      · exact h c (List.mem_cons_self _ _)
      · exact ih false (fun d hd => h d (List.mem_cons_of_mem _ hd)) c hc

theorem mem_of_mem_stripEnds {p q : Char → Bool} {d : Char} {l : List Char}
    (hd : d ∈ ((l.dropWhile p).reverse.dropWhile q).reverse) : d ∈ l := by
  simp only [List.mem_reverse] at hd
  have h1 := (List.dropWhile_sublist q).subset hd
  simp only [List.mem_reverse] at h1
  exact (List.dropWhile_sublist p).subset h1

theorem cleanMid_no_illegal (s : String) :
    ∀ c ∈ stripWhite (stripUnderscore (collapseRuns false (s.toList.map (fun c =>
      if illegal_filename_chars.contains c then '_' else c)))),
      c ∉ illegal_filename_chars := by
  have h1 : ∀ c ∈ (s.toList.map (fun c =>
      if illegal_filename_chars.contains c then '_' else c)), c ∉ illegal_filename_chars := by
    intro d hd
    rcases List.mem_map.mp hd with ⟨x, _, rfl⟩
    split
    · decide
    · next hx => simpa using hx
  have h2 := collapseRuns_mem (fun c => c ∉ illegal_filename_chars) (by decide) false _ h1
  intro d hd
  apply h2
  unfold stripWhite at hd
  have hd1 := mem_of_mem_stripEnds hd
  unfold stripUnderscore at hd1
  exact mem_of_mem_stripEnds hd1

theorem clean_filename_no_illegal (s : String) :
    ∀ c ∈ (clean_filename s).toList, c ∉ illegal_filename_chars := by
  intro c hc
  unfold clean_filename at hc
  dsimp only at hc
  split at hc
  · split at hc
    · have hm : c ∈ ['未', '命', '名', '作', '品'] := hc
      fin_cases hm <;> decide
    · have hc2 : c ∈ rstripUnderscore ((stripWhite (stripUnderscore (collapseRuns false
          (s.toList.map (fun c => if illegal_filename_chars.contains c then '_' else c))))).take 80) := hc
      apply cleanMid_no_illegal s
      unfold rstripUnderscore at hc2
      simp only [List.mem_reverse] at hc2
      have := (List.dropWhile_sublist _).subset hc2
      simp only [List.mem_reverse] at this
      exact (List.take_sublist _ _).subset this
  · split at hc
    · have hm : c ∈ ['未', '命', '名', '作', '品'] := hc
      fin_cases hm <;> decide
    · exact cleanMid_no_illegal s c hc

theorem clean_filename_len_le_80 (s : String) : (clean_filename s).length ≤ 80 := by
  unfold clean_filename
  dsimp only
  split
  · split
    · decide
    · simp only [String.length]
      have h1 : (rstripUnderscore ((stripWhite (stripUnderscore (collapseRuns false
          (s.toList.map (fun c => if illegal_filename_chars.contains c then '_' else c))))).take
          80)).length ≤ ((stripWhite (stripUnderscore (collapseRuns false
          (s.toList.map (fun c => if illegal_filename_chars.contains c then '_' else c))))).take
          80).length := by
        unfold rstripUnderscore
        rw [List.length_reverse]
        calc (((stripWhite (stripUnderscore (collapseRuns false (s.toList.map (fun c =>
              if illegal_filename_chars.contains c then '_' else c))))).take 80).reverse.dropWhile
              (fun c => c == '_')).length
            ≤ (((stripWhite (stripUnderscore (collapseRuns false (s.toList.map (fun c =>
              if illegal_filename_chars.contains c then '_' else c))))).take 80).reverse).length :=
              (List.dropWhile_sublist _).length_le
          _ = _ := List.length_reverse _
      exact h1.trans (List.length_take_le _ _)
  · next hle =>
    split
    · decide
    · simp only [String.length]
      omega

theorem digitChar_isDigit (m : Nat) (h : m < 10) : (Nat.digitChar m).isDigit = true := by
  interval_cases m <;> decide

theorem toDigitsCore_all_digits (f : Nat) : ∀ (n : Nat) (acc : List Char),
    (∀ c ∈ acc, c.isDigit = true) → ∀ c ∈ Nat.toDigitsCore 10 f n acc, c.isDigit = true := by
  induction f with
  | zero => intro n acc hacc c hc; simpa [Nat.toDigitsCore] using hacc c hc
  | succ f ih =>
    intro n acc hacc c hc
    simp only [Nat.toDigitsCore] at hc
    split at hc
    · rcases List.mem_cons.mp hc with rfl | hc
      · exact digitChar_isDigit _ (Nat.mod_lt _ (by norm_num))
      · exact hacc c hc
    · refine ih (n / 10) (Nat.digitChar (n % 10) :: acc) ?_ c hc
      intro d hd
      rcases List.mem_cons.mp hd with rfl | hd
      · exact digitChar_isDigit _ (Nat.mod_lt _ (by norm_num))
      · exact hacc d hd

theorem toString_nat_digits (n : Nat) : ∀ c ∈ (toString n).toList, c.isDigit = true := by
  intro c hc
  exact toDigitsCore_all_digits (n + 1) n [] (by simp) c hc

theorem isDigit_not_illegal (c : Char) (h : c.isDigit = true) :
    c ∉ illegal_filename_chars := by
  intro hmem
  fin_cases hmem <;> exact absurd h (by decide)

/-- C9 amended: the filename is deterministic and free of illegal filename
characters whenever every character of the formatted time is either one of
the two characters the function itself replaces or already legal (the
nickname and content parts are sanitized, the index renders as digits),
and each sanitized part - not the whole name - is capped at 80 characters;
at the spec's probe (nickname A/B:C, time 2024-01-01 10:00:00, empty
content, index 1) the output is A_B_C_2024-01-01_10-00-00_无内容_1, which
has no illegal characters and is at most 80 characters long. -/
theorem create_image_filename_amd (nickname content formatted_time : String) (index : Nat)
    (ht : ∀ c ∈ formatted_time.toList, c = ':' ∨ c ∉ illegal_filename_chars) :
    (∀ c ∈ (create_image_filename nickname formatted_time content index).toList,
      c ∉ illegal_filename_chars) ∧
    (clean_filename nickname).length ≤ 80 ∧
    create_image_filename "A/B:C" "2024-01-01 10:00:00" "" 1
      = "A_B_C_2024-01-01_10-00-00_无内容_1" ∧
    (create_image_filename "A/B:C" "2024-01-01 10:00:00" "" 1).length ≤ 80 := by
  refine ⟨?_, clean_filename_len_le_80 nickname, rfl, by decide⟩
  intro c hc
  unfold create_image_filename at hc
  dsimp only at hc
  simp only [String.toList, String.data_append] at hc
  rcases List.mem_append.mp hc with hc | hc
  · rcases List.mem_append.mp hc with hc | hc
    · rcases List.mem_append.mp hc with hc | hc
      · rcases List.mem_append.mp hc with hc | hc
        · rcases List.mem_append.mp hc with hc | hc
          · rcases List.mem_append.mp hc with hc | hc
            · exact clean_filename_no_illegal nickname c hc
            · rcases (by simpa using hc : c = '_') with rfl
              decide
          · have hc2 : c ∈ formatted_time.toList.map (fun c =>
              if c == ':' then '-' else if c == ' ' then '_' else c) := hc
            rcases List.mem_map.mp hc2 with ⟨x, hx, rfl⟩
            by_cases hx1 : x = ':'
            · simp only [hx1]
              decide
            · by_cases hx2 : x = ' '
              · simp only [hx2]
                decide
              · have hb1 : (x == ':') = false := by simp [hx1]
                have hb2 : (x == ' ') = false := by simp [hx2]
                simp only [hb1, hb2, Bool.false_eq_true, if_false]
                rcases ht x hx with h | h
                · exact absurd h hx1
                · exact h
        · rcases (by simpa using hc : c = '_') with rfl
          decide
      · split at hc
        · simp only [String.data_append] at hc
          rcases List.mem_append.mp hc with hc | hc
          · exact clean_filename_no_illegal _ c hc
          · rcases (by simpa using hc : c = '.' ∨ c = '.' ∨ c = '.') with rfl | rfl | rfl <;> decide
        · exact clean_filename_no_illegal _ c hc
    · rcases (by simpa using hc : c = '_') with rfl
      decide
  · exact isDigit_not_illegal c (toString_nat_digits index c hc)

theorem create_image_filename_amd_witness :
    create_image_filename "A/B:C" "2024-01-01 10:00:00" "" 1
      = "A_B_C_2024-01-01_10-00-00_无内容_1" :=
  (create_image_filename_amd "A/B:C" "" "2024-01-01 10:00:00" 1 (by decide)).2.2.1

theorem runPagination_quota_invariant (q : Nat) (hq : q ≠ 0) :
    ∀ (snaps : List Snapshot) (fuel : Nat) (acc : List PComment), acc.length ≤ q →
      (runPagination (some q) fuel snaps acc).1.length ≤ q ∧
      ((runPagination (some q) fuel snaps acc).2 = StopReason.quota →
        (runPagination (some q) fuel snaps acc).1.length = q) := by
  intro snaps
  induction snaps with
  | nil =>
    intro fuel acc hacc
    cases fuel <;>
      · simp only [runPagination]
        refine ⟨hacc, ?_⟩
        intro h
        simp at h
  | cons s rest ih =>
    intro fuel acc hacc
    cases fuel with
    | zero =>
      simp only [runPagination]
      refine ⟨hacc, ?_⟩
      intro h
      simp at h
    | succ pagesLeft =>
      simp only [runPagination]
      by_cases hb : s.batch.isEmpty
      · simp only [hb, if_true]
        by_cases hm : check_has_more_comments s
        · simp only [hm, if_true]
          exact ih pagesLeft acc hacc
        · simp only [hm, Bool.false_eq_true, if_false]
          refine ⟨hacc, ?_⟩
          intro h
          simp at h
      · simp only [hb, Bool.false_eq_true, if_false]
        by_cases hne : (s.batch.filter (fun c => !((acc.map (fun c => c.id)).contains c.id))).isEmpty
        · simp only [hne, if_true]
          refine ⟨hacc, ?_⟩
          intro h
          simp at h
        · simp only [hne, Bool.false_eq_true, if_false]
          set newC := s.batch.filter (fun c => !((acc.map (fun c => c.id)).contains c.id)) with hnewC
          by_cases htr : q ≠ 0 ∧ acc.length + newC.length > q
          · have hlen2 : (acc ++ newC.take (q - acc.length)).length = q := by
              simp only [List.length_append, List.length_take]
              omega
            have hbool : ((q != 0) && decide ((acc ++ newC.take (q - acc.length)).length ≥ q)) = true := by
              simp [hq, hlen2]
            simp only [if_pos htr, hbool, if_true]
            exact ⟨le_of_eq hlen2, fun _ => hlen2⟩
          · simp only [if_neg htr]
            push_neg at htr
            have hle : acc.length + newC.length ≤ q := htr hq
            have hle2 : (acc ++ newC).length ≤ q := by
              simp only [List.length_append]
              omega
            by_cases hquo : (acc ++ newC).length ≥ q
            · have hquo2 : q ≤ acc.length + newC.length := by
                simpa [List.length_append] using hquo
              have hbool : ((q != 0) && decide ((acc ++ newC).length ≥ q)) = true := by
                simp [hq, List.length_append]
                omega
              simp only [hbool, if_true]
              exact ⟨hle2, fun _ => le_antisymm hle2 hquo⟩
            · have hquo2 : acc.length + newC.length < q := by
                simp only [List.length_append, ge_iff_le, not_le] at hquo
                exact hquo
              have hbool : ((q != 0) && decide ((acc ++ newC).length ≥ q)) = false := by
                simp [List.length_append]
                omega
              simp only [hbool, Bool.false_eq_true, if_false]
              by_cases hm : check_has_more_comments s
              · simp only [hm, if_true]
                exact ih pagesLeft (acc ++ newC) hle2
              · simp only [hm, Bool.false_eq_true, if_false]
                refine ⟨hle2, ?_⟩
                intro h
                simp at h

/-- C1: with a positive quota set, the collected list never exceeds the
quota; whenever the run stops with the quota outcome it holds exactly quota
comments (an overflowing batch is truncated to fill it exactly and the loop
stops immediately); and a source whose first page already offers at least
quota comments yields exactly quota with the quota outcome. -/
theorem pagination_quota_spec (q : Nat) (hq : 0 < q) (snaps : List Snapshot) :
    (get_all_comments_with_pagination (some q) snaps).1.length ≤ q ∧
    ((get_all_comments_with_pagination (some q) snaps).2 = StopReason.quota →
      (get_all_comments_with_pagination (some q) snaps).1.length = q) ∧
    (∀ s rest, snaps = s :: rest → q ≤ s.batch.length →
      (get_all_comments_with_pagination (some q) snaps).1.length = q ∧
      (get_all_comments_with_pagination (some q) snaps).2 = StopReason.quota) := by
  have hq' : q ≠ 0 := Nat.pos_iff_ne_zero.mp hq
  refine ⟨(runPagination_quota_invariant q hq' snaps 50 [] (by simp)).1,
          (runPagination_quota_invariant q hq' snaps 50 [] (by simp)).2, ?_⟩
  intro s rest hsn hbatch
  subst hsn
  unfold get_all_comments_with_pagination
  rw [show (50 : Nat) = 49 + 1 from rfl]
  have hb : s.batch.isEmpty = false := by
    cases hbt : s.batch with
    | nil =>
      rw [hbt] at hbatch
      simp at hbatch
      omega
    | cons a l => rfl
  simp only [runPagination, hb, Bool.false_eq_true, if_false, List.map_nil]
  have hfilter : s.batch.filter (fun c => !(([] : List String).contains c.id)) = s.batch :=
    List.filter_eq_self.mpr (by intro a _; simp)
  rw [hfilter]
  simp only [hb, Bool.false_eq_true, if_false, List.nil_append, List.length_nil, Nat.zero_add]
  by_cases htr : q ≠ 0 ∧ s.batch.length > q
  · have hlen : (s.batch.take (q - 0)).length = q := by
      simp only [Nat.sub_zero, List.length_take]
      omega
    have hbool : ((q != 0) && decide ((s.batch.take (q - 0)).length ≥ q)) = true := by
      simp [hq', hlen]
      omega
    simp only [if_pos htr, hbool, if_true]
    exact ⟨hlen, trivial⟩
  · have hlen : s.batch.length = q := by
      push_neg at htr
      have := htr hq'
      omega
    have hbool : ((q != 0) && decide (s.batch.length ≥ q)) = true := by
      simp [hq', hlen]
    simp only [if_neg htr, hbool, if_true]
    exact ⟨hlen, trivial⟩

theorem pagination_quota_spec_witness :
    (get_all_comments_with_pagination (some 2)
      [{ batch := [{ id := "a", payload := "" }, { id := "b", payload := "" },
                   { id := "c", payload := "" }], hasMore := true, loading := false }]).1.length
      = 2 ∧
    (get_all_comments_with_pagination (some 2)
      [{ batch := [{ id := "a", payload := "" }, { id := "b", payload := "" },
                   { id := "c", payload := "" }], hasMore := true, loading := false }]).2
      = StopReason.quota :=
  (pagination_quota_spec 2 (by decide)
    [{ batch := [{ id := "a", payload := "" }, { id := "b", payload := "" },
                 { id := "c", payload := "" }], hasMore := true, loading := false }]).2.2
    { batch := [{ id := "a", payload := "" }, { id := "b", payload := "" },
                { id := "c", payload := "" }], hasMore := true, loading := false }
    [] rfl (by decide)

/-- C8: deduplication is idempotent with respect to identical input - every
comment whose id is already among the collected ids is filtered out of a
batch, and running the pagination over the same snapshot twice collects
exactly what a single pass collects. -/
theorem dedup_idempotent_spec (maxC : Option Nat) (s : Snapshot) :
    (∀ (acc batch : List PComment) (c : PComment), c ∈ batch →
      c.id ∈ acc.map (fun a => a.id) →
      c ∉ batch.filter (fun c => !((acc.map (fun a => a.id)).contains c.id))) ∧
    (get_all_comments_with_pagination maxC [s, s]).1 =
      (get_all_comments_with_pagination maxC [s]).1 := by
  have hfilter2 : s.batch.filter
      (fun c => !((s.batch.map (fun a => a.id)).contains c.id)) = [] := by
    rw [List.filter_eq_nil_iff]
    intro c hc
    simp [List.contains, List.mem_map]
    exact ⟨c, hc, rfl⟩
  constructor
  · intro acc batch c _ hid hmem
    have hp := (List.mem_filter.mp hmem).2
    simp [List.contains] at hp
    rcases List.mem_map.mp hid with ⟨x, hx, heq⟩
    exact hp x hx heq
  · unfold get_all_comments_with_pagination
    rw [show (50 : Nat) = 49 + 1 from rfl]
    by_cases hb : s.batch.isEmpty
    · by_cases hm : check_has_more_comments s
      · simp only [runPagination, hb, if_true, hm]
      · simp only [runPagination, hb, if_true, hm, Bool.false_eq_true, if_false]
    · have hbf : s.batch.isEmpty = false := eq_false_of_ne_true hb
      have hfilter : s.batch.filter (fun c => !(([] : List String).contains c.id)) = s.batch :=
        List.filter_eq_self.mpr (by intro a _; simp)
      simp only [runPagination, hbf, Bool.false_eq_true, if_false, List.map_nil, hfilter,
        List.nil_append, List.length_nil, Nat.zero_add]
      cases maxC with
      | none =>
        by_cases hm : check_has_more_comments s
        · simp only [hm, if_true]
          have htriv : ∀ a ∈ s.batch, ∃ x ∈ s.batch, x.id = a.id := fun a ha => ⟨a, ha, rfl⟩
          simp [runPagination, hbf, hfilter2]
          rw [if_pos htriv]
        · simp only [hm, Bool.false_eq_true, if_false]
      | some q =>
        by_cases htr : q ≠ 0 ∧ s.batch.length > q
        · simp only [if_pos htr]
          have hlen : (s.batch.take (q - 0)).length = q := by
            simp only [Nat.sub_zero, List.length_take]
            omega
          have hbool : ((q != 0) && decide ((s.batch.take (q - 0)).length ≥ q)) = true := by
            rw [hlen]
            simp [htr.1]
          simp only [hbool, if_true]
        · simp only [if_neg htr]
          by_cases hquo : ((q != 0) && decide (s.batch.length ≥ q)) = true
          · simp only [hquo, if_true]
          · have hquof : ((q != 0) && decide (s.batch.length ≥ q)) = false :=
              eq_false_of_ne_true hquo
            simp only [hquof, Bool.false_eq_true, if_false]
            by_cases hm : check_has_more_comments s
            · simp only [hm, if_true]
              have htriv : ∀ a ∈ s.batch, ∃ x ∈ s.batch, x.id = a.id := fun a ha => ⟨a, ha, rfl⟩
              simp [runPagination, hbf, hfilter2]
              rw [if_pos htriv]
            · simp only [hm, Bool.false_eq_true, if_false]

theorem dedup_idempotent_spec_witness :
    ({ id := "a", payload := "y" } : PComment) ∉
      ([{ id := "a", payload := "y" }] : List PComment).filter
        (fun c => !((([{ id := "a", payload := "x" }] : List PComment).map
          (fun a => a.id)).contains c.id)) :=
  (dedup_idempotent_spec none { batch := [], hasMore := false, loading := false }).1
    [{ id := "a", payload := "x" }] [{ id := "a", payload := "y" }]
    { id := "a", payload := "y" } (List.mem_singleton_self _) (by decide)

theorem OccursWithin.mono {k k2 : Nat} {x v : PyVal} (hk : k ≤ k2)
    (h : OccursWithin k x v) : OccursWithin k2 x v := by
  induction h generalizing k2 with
  | here _ _ => exact OccursWithin.here _ _
  | step k x child v hc _ ih =>
    cases k2 with
    | zero => omega
    | succ m => exact OccursWithin.step m x child v hc (ih (by omega))

theorem dictGet_mem_childVals (entries : List (String × PyVal)) (key : String) (v : PyVal)
    (h : dictGet entries key = some v) : v ∈ childVals (PyVal.dict entries) := by
  induction entries with
  | nil => simp [dictGet] at h
  | cons kv rest ih =>
    simp only [dictGet] at h
    split at h
    · cases h
      simp [childVals]
    · have := ih h
      simp [childVals] at this ⊢
      exact Or.inr this

theorem recursive_search_occurs (fuel : Nat) :
    ∀ (v x : PyVal), x ∈ recursive_search_comments fuel v →
      OccursWithin (fuel + 2) x v := by
  induction fuel with
  | zero =>
    intro v x hx
    simp [recursive_search_comments] at hx
  | succ f ih =>
    intro v x hx
    cases v with
    | dict entries =>
      simp only [recursive_search_comments] at hx
      split at hx
      · rcases List.mem_singleton.mp hx with rfl
        exact OccursWithin.here _ _
      · rcases List.mem_flatMap.mp hx with ⟨kv, hkv, hxin⟩
        have hchild : kv.2 ∈ childVals (PyVal.dict entries) := List.mem_map_of_mem _ hkv
        by_cases hsp : special_comment_keys.contains kv.1
        · rw [if_pos hsp] at hxin
          cases hv2 : kv.2 with
          | list items =>
            rw [hv2] at hxin
            simp only [extract_from_special_value] at hxin
            have hxi : x ∈ items := List.mem_of_mem_filter hxin
            have h2 : OccursWithin 1 x (PyVal.list items) :=
              OccursWithin.step 0 _ _ _ hxi (OccursWithin.here _ _)
            have h3 : OccursWithin 2 x (PyVal.dict entries) :=
              OccursWithin.step 1 _ _ _ (hv2 ▸ hchild) h2
            exact h3.mono (by omega)
          | dict sub =>
            rw [hv2] at hxin
            simp only [extract_from_special_value] at hxin
            cases hls : dictGet sub "list" with
            | none => rw [hls] at hxin; simp at hxin
            | some w =>
              rw [hls] at hxin
              cases w with
              | list items =>
                have hxi : x ∈ items := List.mem_of_mem_filter hxin
                have h1 : OccursWithin 1 x (PyVal.list items) :=
                  OccursWithin.step 0 _ _ _ hxi (OccursWithin.here _ _)
                have h2 : OccursWithin 2 x (PyVal.dict sub) :=
                  OccursWithin.step 1 _ _ _ (dictGet_mem_childVals sub "list" _ hls) h1
                have h3 : OccursWithin 3 x (PyVal.dict entries) :=
                  OccursWithin.step 2 _ _ _ (hv2 ▸ hchild) h2
                exact h3.mono (by omega)
              | null => simp at hxin
              | bool b => simp at hxin
              | int n => simp at hxin
              | str s2 => simp at hxin
              | dict sub2 => simp at hxin
          | null => rw [hv2] at hxin; simp [extract_from_special_value] at hxin
          | bool b => rw [hv2] at hxin; simp [extract_from_special_value] at hxin
          | int n => rw [hv2] at hxin; simp [extract_from_special_value] at hxin
          | str s2 => rw [hv2] at hxin; simp [extract_from_special_value] at hxin
        · rw [if_neg hsp] at hxin
          exact OccursWithin.step (f + 2) _ _ _ hchild (ih kv.2 x hxin)
    | list items =>
      simp only [recursive_search_comments] at hx
      rcases List.mem_flatMap.mp hx with ⟨item, hit, hxin⟩
      have hchild : item ∈ childVals (PyVal.list items) := hit
      by_cases hl : looks_like_comment_data item
      · rw [if_pos hl] at hxin
        rcases List.mem_singleton.mp hxin with rfl
        exact (OccursWithin.step 0 _ _ _ hchild (OccursWithin.here _ _)).mono (by omega)
      · rw [if_neg hl] at hxin
        exact OccursWithin.step (f + 2) _ _ _ hchild (ih item x hxin)
    | null => simp [recursive_search_comments] at hx
    | bool b => simp [recursive_search_comments] at hx
    | int n => simp [recursive_search_comments] at hx
    | str s2 => simp [recursive_search_comments] at hx

/-- C5: the fallback comment search terminates on every finite snapshot tree
(it is a total function of the depth fuel) and never recurses past its
depth bound: every returned record occurs within depth fuel + 2 of the
root, depth 0 returns nothing, and on the synthetic 10-level-deep tree the
default depth-5 search returns no record at all while the same record
buried only 4 levels deep is found. -/
theorem recursive_search_depth_bound_t :
    (∀ fuel v x, x ∈ recursive_search_comments fuel v → OccursWithin (fuel + 2) x v) ∧
    (∀ w, recursive_search_comments 0 w = []) ∧
    recursive_search_comments 5 (deepNest 10) = [] ∧
    recursive_search_comments 5 (deepNest 4) = [deepNest 0] :=
  ⟨fun fuel v x h => recursive_search_occurs fuel v x h, fun _ => rfl, rfl, rfl⟩

theorem recursive_search_depth_bound_t_witness :
    OccursWithin 7 (deepNest 0) (deepNest 4) :=
  recursive_search_depth_bound_t.1 5 (deepNest 4) (deepNest 0)
    (recursive_search_depth_bound_t.2.2.2 ▸ List.mem_singleton_self _)

theorem matchHexAt_none_iff (lit s : List Char) :
    matchHexAt lit s = none ↔ ¬ MatchesHexAt lit s := by
  unfold matchHexAt
  by_cases hpre : lit.isPrefixOf s
  · rw [if_pos hpre]
    rcases List.isPrefixOf_iff_prefix.mp hpre with ⟨t, rfl⟩
    rw [List.drop_left]
    cases t with
    | nil =>
      simp only [List.takeWhile_nil, List.isEmpty_nil, if_true, true_iff]
      rintro ⟨c, post, heq, hhex⟩
      have := List.append_cancel_left heq
      simp at this
    | cons c rest =>
      by_cases hc : isHexChar c
      · rw [List.takeWhile_cons_of_pos hc]
        simp only [List.isEmpty_cons, Bool.false_eq_true, if_false]
        constructor
        · intro h
          simp at h
        · intro h
          exact absurd ⟨c, rest, rfl, hc⟩ h
      · rw [List.takeWhile_cons_of_neg hc]
        simp only [List.isEmpty_nil, if_true, true_iff]
        rintro ⟨c2, post, heq, hhex⟩
        have h2 := List.append_cancel_left heq
        have hc2 : c2 = c := by
          have := congrArg (fun l => l.head?) h2
          simpa using this.symm
        exact hc (hc2 ▸ hhex)
  · rw [if_neg hpre]
    simp only [true_iff]
    rintro ⟨c, post, heq, hhex⟩
    apply hpre
    rw [heq]
    exact List.isPrefixOf_iff_prefix.mpr ⟨c :: post, rfl⟩

theorem matchHexAt_some_hex (lit s cap : List Char)
    (h : matchHexAt lit s = some cap) : cap ≠ [] ∧ cap.all isHexChar = true := by
  unfold matchHexAt at h
  split at h
  · dsimp only at h
    split at h
    · exact absurd h (by simp)
    · next hne =>
      cases h
      refine ⟨fun hc => by rw [hc] at hne; exact hne rfl, ?_⟩
      rw [List.all_eq_true]
      intro c hc
      exact List.mem_takeWhile_imp hc
  · exact absurd h (by simp)

theorem searchHex_none_iff (lit : List Char) : ∀ s : List Char,
    searchHex lit s = none ↔ ¬ MatchesHexPattern lit s := by
  intro s
  induction s with
  | nil =>
    simp only [searchHex, matchHexAt_none_iff]
    constructor
    · rintro h ⟨pre, c, post, heq, hhex⟩
      cases pre with
      | nil =>
        simp only [List.nil_append] at heq
        exact h ⟨c, post, heq, hhex⟩
      | cons a b =>
        have heq2 := heq.symm
        simp at heq2
    · intro h
      rintro ⟨c, post, heq, hhex⟩
      exact h ⟨[], c, post, by simp only [List.nil_append]; exact heq, hhex⟩
  | cons a s2 ih =>
    simp only [searchHex]
    constructor
    · intro h
      split at h
      · exact absurd h (by simp)
      · next hma =>
        rintro ⟨pre, c, post, heq, hhex⟩
        cases pre with
        | nil =>
          rw [matchHexAt_none_iff] at hma
          simp only [List.nil_append] at heq
          exact hma ⟨c, post, heq, hhex⟩
        | cons b pre2 =>
          have hb : a = b ∧ s2 = pre2 ++ lit ++ c :: post := by
            have : a :: s2 = b :: (pre2 ++ lit ++ c :: post) := by simpa using heq
            exact ⟨by injection this, by injection this⟩
          exact (ih.mp h) ⟨pre2, c, post, hb.2, hhex⟩
    · intro h
      have h1 : matchHexAt lit (a :: s2) = none := by
        rw [matchHexAt_none_iff]
        rintro ⟨c, post, heq, hhex⟩
        exact h ⟨[], c, post, by simpa using heq, hhex⟩
      rw [h1]
      rw [ih]
      rintro ⟨pre, c, post, heq, hhex⟩
      exact h ⟨a :: pre, c, post, by simp [heq], hhex⟩

theorem searchHex_some_hex (lit : List Char) : ∀ (s cap : List Char),
    searchHex lit s = some cap → cap ≠ [] ∧ cap.all isHexChar = true := by
  intro s
  induction s with
  | nil =>
    intro cap h
    simp only [searchHex] at h
    exact matchHexAt_some_hex lit [] cap h
  | cons a s2 ih =>
    intro cap h
    simp only [searchHex] at h
    split at h
    · next cap0 hma =>
      cases h
      exact matchHexAt_some_hex lit (a :: s2) _ hma
    · exact ih cap h

/-- C7: extract_note_id returns a non-empty hexadecimal capture for every id
it returns; it returns None exactly when the URL contains none of the three
shapes explore/<hex>, discovery/item/<hex>, item/<hex> (probed in that
order); and a None id makes extract_comments fail immediately with False,
whatever the rest of the run would have done. -/
theorem extract_note_id_spec_t (url : String) :
    (∀ nid, extract_note_id url = some nid →
      nid.toList ≠ [] ∧ nid.toList.all isHexChar = true) ∧
    (extract_note_id url = none ↔
      ¬ MatchesHexPattern "explore/".toList url.toList ∧
      ¬ MatchesHexPattern "discovery/item/".toList url.toList ∧
      ¬ MatchesHexPattern "item/".toList url.toList) ∧
    (extract_note_id url = none → ∀ rest, extract_comments_guard url rest = false) := by
  refine ⟨?_, ?_, ?_⟩
  · intro nid hnid
    unfold extract_note_id at hnid
    dsimp only at hnid
    cases h1 : searchHex "explore/".toList url.toList with
    | some cap =>
      rw [h1] at hnid
      cases hnid
      exact searchHex_some_hex _ _ _ h1
    | none =>
      rw [h1] at hnid
      cases h2 : searchHex "discovery/item/".toList url.toList with
      | some cap =>
        rw [h2] at hnid
        cases hnid
        exact searchHex_some_hex _ _ _ h2
      | none =>
        rw [h2] at hnid
        cases h3 : searchHex "item/".toList url.toList with
        | some cap =>
          rw [h3] at hnid
          cases hnid
          exact searchHex_some_hex _ _ _ h3
        | none =>
          rw [h3] at hnid
          cases hnid
  · constructor
    · intro hn
      unfold extract_note_id at hn
      dsimp only at hn
      cases h1 : searchHex "explore/".toList url.toList with
      | some cap => rw [h1] at hn; cases hn
      | none =>
        rw [h1] at hn
        cases h2 : searchHex "discovery/item/".toList url.toList with
        | some cap => rw [h2] at hn; cases hn
        | none =>
          rw [h2] at hn
          cases h3 : searchHex "item/".toList url.toList with
          | some cap => rw [h3] at hn; cases hn
          | none =>
            exact ⟨(searchHex_none_iff _ _).mp h1, (searchHex_none_iff _ _).mp h2,
                   (searchHex_none_iff _ _).mp h3⟩
    · rintro ⟨hm1, hm2, hm3⟩
      unfold extract_note_id
      dsimp only
      rw [(searchHex_none_iff _ _).mpr hm1, (searchHex_none_iff _ _).mpr hm2,
          (searchHex_none_iff _ _).mpr hm3]
  · intro hn rest
    unfold extract_comments_guard
    rw [hn]

theorem extract_note_id_spec_t_witness :
    ("ab12cd".toList ≠ [] ∧ "ab12cd".toList.all isHexChar = true) ∧
    extract_comments_guard "https://www.xiaohongshu.com/profile/none"
      (fun _ => true) = false :=
  ⟨(extract_note_id_spec_t "https://x/discovery/item/ab12cd?q=1").1 "ab12cd" rfl,
   (extract_note_id_spec_t "https://www.xiaohongshu.com/profile/none").2.2 rfl
     (fun _ => true)⟩
